import Mathlib

/-! Verification development.
Verification of the MEAN-QUANT quantitative-analysis engine
(`src/server/utils/quantAnalysis.js`).

JavaScript numbers are modelled as exact numerals: `ℚ` for the purely
rational computations (returns, moving averages, drawdown, RSI, VaR/CVaR,
covariance/beta) and `ℝ` for the computations that use `Math.sqrt`,
`Math.log` or `Math.pow` (volatility, Sharpe, Sortino, annualization,
log-returns).  Every IEEE double is a rational number, so the value domain
is faithful; floating-point rounding is the only thing abstracted away.

The source delegates `mean`, `standardDeviation` and `variance` to the
external `simple-statistics` package, whose code is not part of this
repository.  Those three primitives are modelled from the specification
(see the doc comments marked "Modelled from the spec").  Everything else is
a direct translation of the JavaScript in `quantAnalysis.js`.
-/

namespace QuantAnalysis

/-- Source `calculateReturns` (quantAnalysis.js, lines 13-19): the loop
`for i in [1, n): push (p[i] - p[i-1]) / p[i-1]` is the pointwise
combination of the series with its own tail. -/
def calculateReturns (prices : List ℚ) : List ℚ :=
  List.zipWith (fun prev cur => (cur - prev) / prev) prices prices.tail

/-- Source `calculateSMA` (lines 221-228): the loop runs `i` from `period - 1` to
`prices.length - 1`, pushing the mean of the window `slice(i-period+1, i+1)`.
Window `i` starts at `k = i - period + 1`, so the windows are the
`prices.length + 1 - period` contiguous windows of size `period`
(none when `period > prices.length`, matching the loop not running).
The spec (§4.3) requires `period ≥ 1`. -/
def calculateSMA (prices : List ℚ) (period : ℕ) : List ℚ :=
  (List.range (prices.length + 1 - period)).map
    (fun k => ((prices.drop k).take period).sum / (period : ℚ))

/-- Modelled from the spec: `ss.mean` of the external simple-statistics
package (spec §9 names the toolkit primitives); the mean of a list is its
sum divided by its length. -/
def ssMean (xs : List ℚ) : ℚ := xs.sum / (xs.length : ℚ)

/-- Source `calculateCovariance` (lines 193-203): sample covariance, the loop
`sum += (x[i] - meanX) * (y[i] - meanY)` over the common indices,
divided by `x.length - 1`. -/
def calculateCovariance (x y : List ℚ) : ℚ :=
  ((List.zip x y).map (fun q => (q.1 - ssMean x) * (q.2 - ssMean y))).sum
    / ((x.length : ℚ) - 1)

/-- Modelled from the spec: `ss.variance` of the external simple-statistics
package.  The spec (§4.2) only says "variance(benchmark)" without fixing
the divisor; population form (divide by `n`) is used here.  The claims
settled below depend only on when the variance is zero, which is the same
set of lists for either divisor. -/
def ssVariance (xs : List ℚ) : ℚ :=
  ((xs.map (fun v => (v - ssMean xs) ^ 2)).sum) / (xs.length : ℚ)

/-- Source `calculateBeta` (lines 156-169): truncate both series to the shorter
length, then `covariance / variance(benchmark)` with an explicit zero
guard on the benchmark variance. -/
def calculateBeta (assetReturns benchmarkReturns : List ℚ) : ℚ :=
  let minLength := min assetReturns.length benchmarkReturns.length
  let asset := assetReturns.take minLength
  let benchmark := benchmarkReturns.take minLength
  let covariance := calculateCovariance asset benchmark
  let benchmarkVariance := ssVariance benchmark
  if benchmarkVariance = 0 then 0 else covariance / benchmarkVariance

/-- Source `calculateVaR` (lines 355-359): sort ascending, pick the element at
`floor((1 - confidenceLevel) * n)`, negate.  The JavaScript
`sort((a, b) => a - b)` is modelled by insertion sort with `≤` (a sorted
permutation; ℚ values carry no further identity). -/
def calculateVaR (returns : List ℚ) (confidenceLevel : ℚ) : ℚ :=
  let sortedReturns := returns.insertionSort (· ≤ ·)
  let index := (Int.floor ((1 - confidenceLevel) * (returns.length : ℚ))).toNat
  Neg.neg (sortedReturns.getD index 0)

/-- Source `calculateCVaR` (lines 367-372): mean of the sorted tail up to and
including the VaR cutoff index, negated (`ss.mean` modelled as
sum/length, see `ssMean`). -/
def calculateCVaR (returns : List ℚ) (confidenceLevel : ℚ) : ℚ :=
  let sortedReturns := returns.insertionSort (· ≤ ·)
  let cutoffIndex := (Int.floor ((1 - confidenceLevel) * (returns.length : ℚ))).toNat
  let tailReturns := sortedReturns.take (cutoffIndex + 1)
  Neg.neg (ssMean tailReturns)

/-- The mutable scan state of `calculateMaxDrawdown` (lines 124-141):
`maxDrawdown`, `peak`, `peakIndex`, `troughIndex`. -/
structure MddState where
  mdd : ℚ
  peak : ℚ
  peakIdx : ℕ
  troughIdx : ℕ
  deriving DecidableEq, Repr

/-- One iteration of the `calculateMaxDrawdown` loop at index `i` with
price `p`: first the running-peak update (`prices[i] > peak`), then the
drawdown `(peak - prices[i]) / peak`, then the max-drawdown update. -/
def mddStep (s : MddState) (ip : ℕ × ℚ) : MddState :=
  let i := ip.1
  let p := ip.2
  let s1 := if p > s.peak then { s with peak := p, peakIdx := i } else s
  let drawdown := (s1.peak - p) / s1.peak
  if drawdown > s1.mdd then { s1 with mdd := drawdown, troughIdx := i } else s1

/-- The whole scan of `calculateMaxDrawdown`: state initialised to
`{0, prices[0], 0, 0}`, then the loop over indices `1 .. n-1`.
(`headD 0` supplies a junk initial peak for the empty list, on which the
JavaScript reads `undefined`; all claims assume a non-empty series.) -/
def mddScan (prices : List ℚ) : MddState :=
  (prices.tail.enumFrom 1).foldl mddStep ⟨0, prices.headD 0, 0, 0⟩

/-- Result record of `calculateMaxDrawdown` (lines 143-147). -/
structure DrawdownResult where
  maxDrawdown : ℚ
  peakIndex : ℕ
  troughIndex : ℕ
  deriving DecidableEq, Repr

/-- Source `calculateMaxDrawdown` (lines 124-148). -/
def calculateMaxDrawdown (prices : List ℚ) : DrawdownResult :=
  let s := mddScan prices
  ⟨s.mdd, s.peakIdx, s.troughIdx⟩

/-- Maximum of a non-empty list (0 on the empty list); used by the
spec-side description of the running peak. -/
def listMax : List ℚ → ℚ
  | [] => 0
  | a :: t => t.foldl max a

/-- Spec-side (§4.2): the drawdown at position `i`,
`(peak - p[i]) / peak`, where `peak` is the running peak, i.e. the
maximum over `p[0..i]`. -/
def ddAt (p : List ℚ) (i : ℕ) : ℚ :=
  let peak := listMax (p.take (i + 1))
  (peak - p.getD i 0) / peak

/-- Spec-side: the maximum drawdown value, the largest `ddAt` over all
positions (at least 0; position 0 always contributes 0). -/
def mddSpec (p : List ℚ) : ℚ :=
  ((List.range p.length).map (fun i => ddAt p i)).foldl max 0

/-- Spec-side: the first position whose drawdown achieves the maximum
("first trough that achieves the maximum wins"). -/
def troughSpec (p : List ℚ) : ℕ :=
  (List.range p.length).findIdx (fun i => decide (ddAt p i = mddSpec p))

/-- Spec-side: the first position attaining the overall maximum price
("first peak encountered wins"). -/
def peakSpec (p : List ℚ) : ℕ :=
  p.findIdx (fun x => decide (x = listMax p))

/-- Consecutive price changes `prices[i] - prices[i-1]` (lines 268-272). -/
def priceChanges (prices : List ℚ) : List ℚ :=
  List.zipWith (fun prev cur => cur - prev) prices prices.tail

/-- The gains series of `calculateRSI`: positive changes, else 0. -/
def rsiGains (prices : List ℚ) : List ℚ :=
  (priceChanges prices).map (fun change => if change > 0 then change else 0)

/-- The losses series of `calculateRSI`: absolute negative changes, else 0. -/
def rsiLosses (prices : List ℚ) : List ℚ :=
  (priceChanges prices).map (fun change => if change < 0 then -change else 0)

/-- The RSI loop (lines 279-289): Wilder smoothing
`avg' = (avg * (period - 1) + current) / period` of the running average
gain and loss, then `100` when the smoothed loss is 0 and
`100 - 100 / (1 + avgGain / avgLoss)` otherwise. -/
def rsiLoop (period : ℕ) : List (ℚ × ℚ) → ℚ → ℚ → List ℚ
  | [], _, _ => []
  | gl :: rest, avgGain, avgLoss =>
    let avgGain2 := (avgGain * ((period : ℚ) - 1) + gl.1) / (period : ℚ)
    let avgLoss2 := (avgLoss * ((period : ℚ) - 1) + gl.2) / (period : ℚ)
    (if avgLoss2 = 0 then 100 else 100 - 100 / (1 + avgGain2 / avgLoss2))
      :: rsiLoop period rest avgGain2 avgLoss2

/-- Initial average gain of `calculateRSI` (line 275): mean of the first
`period` gains. -/
def rsiInitAvgGain (prices : List ℚ) (period : ℕ) : ℚ :=
  ((rsiGains prices).take period).sum / (period : ℚ)

/-- Initial average loss of `calculateRSI` (line 276). -/
def rsiInitAvgLoss (prices : List ℚ) (period : ℕ) : ℚ :=
  ((rsiLosses prices).take period).sum / (period : ℚ)

/-- Source `calculateRSI` (lines 262-292): the loop consumes
`gains[period..]` and `losses[period..]` in lockstep. -/
def calculateRSI (prices : List ℚ) (period : ℕ) : List ℚ :=
  rsiLoop period
    (List.zip ((rsiGains prices).drop period) ((rsiLosses prices).drop period))
    (rsiInitAvgGain prices period) (rsiInitAvgLoss prices period)

/-- The sequence of smoothed average losses produced inside the RSI loop,
one per emitted RSI value (spec-side companion of `rsiLoop`). -/
def rsiAvgLossList (period : ℕ) : List (ℚ × ℚ) → ℚ → List ℚ
  | [], _ => []
  | gl :: rest, avgLoss =>
    let avgLoss2 := (avgLoss * ((period : ℚ) - 1) + gl.2) / (period : ℚ)
    avgLoss2 :: rsiAvgLossList period rest avgLoss2

/-- The smoothed average loss at each output position of `calculateRSI`. -/
def calculateRSIAvgLosses (prices : List ℚ) (period : ℕ) : List ℚ :=
  rsiAvgLossList period
    (List.zip ((rsiGains prices).drop period) ((rsiLosses prices).drop period))
    (rsiInitAvgLoss prices period)

section RealSide

open scoped Classical

/-- A JavaScript number outcome: an exact real value, `NaN`, or a signed
infinity.  Exact reals stand for finite doubles (every double is
rational); rounding is abstracted away, the special values are not. -/
inductive JsNum where
  | nan : JsNum
  | posInf : JsNum
  | negInf : JsNum
  | val : ℝ → JsNum

/-- JavaScript division of two finite numbers (ECMAScript
Number::divide): finite ⁄ 0 is `NaN` when the dividend is 0 and a signed
infinity otherwise; all other quotients are exact. -/
noncomputable def jsDiv (a b : ℝ) : JsNum :=
  if b = 0 then
    (if a = 0 then .nan else if 0 < a then .posInf else .negInf)
  else .val (a / b)

/-- JavaScript division of a possibly non-finite number by a finite one. -/
noncomputable def jsDivNum (a : JsNum) (b : ℝ) : JsNum :=
  match a with
  | .nan => .nan
  | .posInf => if b < 0 then .negInf else .posInf
  | .negInf => if b < 0 then .posInf else .negInf
  | .val x => jsDiv x b

/-- JavaScript division of a finite number by a possibly non-finite one
(finite ⁄ ±∞ is 0). -/
noncomputable def jsDivFin (a : ℝ) (b : JsNum) : JsNum :=
  match b with
  | .nan => .nan
  | .posInf => .val 0
  | .negInf => .val 0
  | .val y => jsDiv a y

/-- Subtraction of a finite number from a JavaScript number. -/
noncomputable def jsSub (a : JsNum) (c : ℝ) : JsNum :=
  match a with
  | .nan => .nan
  | .posInf => .posInf
  | .negInf => .negInf
  | .val x => .val (x - c)

/-- JavaScript `Math.pow` with a finite base (ECMAScript Number::exponentiate):
`NaN` exponent gives `NaN`; exponent 0 gives 1; exponent `±∞` gives `NaN`
when `|base| = 1`, and 0 or `+∞` by comparison of `|base|` with 1;
a positive base with a finite exponent is the real power; base 0 gives 0
or `+∞` by the sign of the exponent; a negative base gives the integer
power for integer exponents and `NaN` otherwise. -/
noncomputable def jsPow (b : ℝ) (e : JsNum) : JsNum :=
  match e with
  | .nan => .nan
  | .posInf =>
    if |b| = 1 then .nan else if 1 < |b| then .posInf else .val 0
  | .negInf =>
    if |b| = 1 then .nan else if 1 < |b| then .val 0 else .posInf
  | .val y =>
    if y = 0 then .val 1
    else if 0 < b then .val (b ^ y)
    else if b = 0 then (if 0 < y then .val 0 else .posInf)
    else if h : ∃ k : ℤ, (k : ℝ) = y then .val (b ^ Classical.choose h)
    else .nan

/-- Source accumulator `totalReturn` of `calculateAnnualizedReturn`
(line 56): `returns.reduce((acc, r) => acc * (1 + r), 1) - 1`. -/
def jsTotalReturn (returns : List ℝ) : ℝ :=
  (returns.foldl (fun acc r => acc * (1 + r)) 1) - 1

/-- Source `calculateAnnualizedReturn` (lines 55-59):
`periods = returns.length / tradingDays`, result
`Math.pow(1 + totalReturn, 1 / periods) - 1`.  There is no guard on
`returns.length`; an empty list drives `1 / periods` to `+∞` and
`Math.pow(1, Infinity)` is `NaN`. -/
noncomputable def calculateAnnualizedReturn (returns : List ℝ) (tradingDays : ℝ) : JsNum :=
  let totalReturn := jsTotalReturn returns
  let periods := jsDiv (returns.length : ℝ) tradingDays
  jsSub (jsPow (1 + totalReturn) (jsDivFin 1 periods)) 1

/-- Source `calculateLogReturns` (lines 26-32): `Math.log(p[i] / p[i-1])` over
consecutive pairs. -/
noncomputable def calculateLogReturns (prices : List ℝ) : List ℝ :=
  List.zipWith (fun prev cur => Real.log (cur / prev)) prices prices.tail

/-- The error taxonomy of spec §7 that the engine is specified to fail
with when the input is too short. -/
inductive QuantError where
  | insufficientData : QuantError
  deriving DecidableEq

/-- Modelled from the spec: `ss.mean` of the external simple-statistics
package, over the reals. -/
noncomputable def ssMeanR (xs : List ℝ) : ℝ := xs.sum / (xs.length : ℝ)

/-- Modelled from the spec: `ss.standardDeviation` of the external
simple-statistics package, as the spec describes it for volatility
(§4.2: "sample standard deviation of returns", "Requires ≥2 returns",
§7: InsufficientDataError when `len(returns) < 2`): the square root of
the sum of squared deviations from the mean divided by `n - 1`. -/
noncomputable def ssStandardDeviation (xs : List ℝ) : Except QuantError ℝ :=
  if xs.length < 2 then .error .insufficientData
  else .ok (Real.sqrt (((xs.map (fun v => (v - ssMeanR xs) ^ 2)).sum) / ((xs.length : ℝ) - 1)))

/-- Source `calculateVolatility` (lines 67-70): standard deviation of the
returns times `√tradingDays`. -/
noncomputable def calculateVolatility (returns : List ℝ) (tradingDays : ℝ) : Except QuantError ℝ :=
  (ssStandardDeviation returns).map (fun stdDev => stdDev * Real.sqrt tradingDays)

/-- Source `calculateSharpeRatio` (lines 79-88): annualized return
and annualized volatility, an explicit `0` when the volatility is 0, and
the excess-return quotient otherwise. -/
noncomputable def calculateSharpe (returns : List ℝ) (riskFreeRate tradingDays : ℝ) : Except QuantError JsNum :=
  let annualizedReturn := calculateAnnualizedReturn returns tradingDays
  (calculateVolatility returns tradingDays).map (fun annualizedVol =>
    if annualizedVol = 0 then .val 0
    else jsDivNum (jsSub annualizedReturn riskFreeRate) annualizedVol)

/-- The downside list of `calculateSortinoRatio` (lines 102-104):
squared shortfalls of the returns strictly below the per-period
risk-free rate. -/
noncomputable def downsideReturns (returns : List ℝ) (dailyRiskFree : ℝ) : List ℝ :=
  (returns.filter (fun r => r < dailyRiskFree)).map (fun r => (r - dailyRiskFree) ^ 2)

/-- Source `calculateSortinoRatio` (lines 97-117): `Infinity` when
there are no downside returns, downside deviation
`√(mean downside) * √tradingDays`, `Infinity` again when that deviation
is 0, else the excess-return quotient. -/
noncomputable def calculateSortino (returns : List ℝ) (riskFreeRate tradingDays : ℝ) : JsNum :=
  let annualizedReturn := calculateAnnualizedReturn returns tradingDays
  let dailyRiskFree := riskFreeRate / tradingDays
  let downside := downsideReturns returns dailyRiskFree
  if downside = [] then .posInf
  else
    let downsideDeviation := Real.sqrt (ssMeanR downside) * Real.sqrt tradingDays
    if downsideDeviation = 0 then .posInf
    else jsDivNum (jsSub annualizedReturn riskFreeRate) downsideDeviation

end RealSide

/-! Claim C5: shape of the return series -/

/-- C5: for a price series of length at least 2 the return series has
length `n - 1`; when every price is nonzero,
`(1 + returns[i]) * prices[i] = prices[i+1]` at every position; and the
empty and single-element series give an empty return series (not an
error) for both `calculateReturns` and `calculateLogReturns`. -/
theorem C5_returns_shape (p : List ℚ) :
    (2 ≤ p.length → (calculateReturns p).length = p.length - 1)
    ∧ ((∀ x ∈ p, x ≠ 0) → ∀ i, i + 1 < p.length →
        (1 + (calculateReturns p).getD i 0) * p.getD i 0 = p.getD (i + 1) 0)
    ∧ calculateReturns [] = []
    ∧ (∀ x : ℚ, calculateReturns [x] = [])
    ∧ calculateLogReturns [] = []
    ∧ (∀ x : ℝ, calculateLogReturns [x] = []) := by
  have hlen : (calculateReturns p).length = p.length - 1 := by
    simp [calculateReturns, List.length_zipWith, List.length_tail]
  refine ⟨fun _ => hlen, ?_, rfl, fun x => rfl, rfl, fun x => rfl⟩
  intro hx i hi
  have hi1 : i < p.length := Nat.lt_of_succ_lt hi
  have hir : i < (calculateReturns p).length := by omega
  have hit : i < p.tail.length := by
    rw [List.length_tail]; omega
  rw [List.getD_eq_getElem _ _ hir, List.getD_eq_getElem _ _ hi1,
    List.getD_eq_getElem _ _ hi]
  have hget : (calculateReturns p)[i] = (p[i + 1] - p[i]) / p[i] := by
    simp only [calculateReturns]
    rw [List.getElem_zipWith (h := hir), List.getElem_tail]
  rw [hget]
  have hpi : p[i] ≠ 0 := hx _ (List.getElem_mem hi1)
  field_simp

/-- C5 witness: the theorem applied to the concrete series `[1, 2]`. -/
theorem C5_witness :
    (calculateReturns [1, 2]).length = ([1, 2] : List ℚ).length - 1
    ∧ (1 + (calculateReturns [(1 : ℚ), 2]).getD 0 0) * ([(1 : ℚ), 2].getD 0 0)
        = [(1 : ℚ), 2].getD 1 0 :=
  ⟨(C5_returns_shape [1, 2]).1 (by norm_num),
    (C5_returns_shape [1, 2]).2.1 (by decide) 0 (by norm_num)⟩

/-! Claim C1: annualized return on an empty series -/

/-- C1 counterexample: `calculateAnnualizedReturn` is not guarded against
the empty return series and does not fail with a `DomainError`; it
silently produces `NaN` (`periods = 0`, `1 / periods = +∞`,
`Math.pow(1, Infinity) = NaN`). -/
theorem C1_counterexample : calculateAnnualizedReturn [] 252 = JsNum.nan := by
  have h1 : jsTotalReturn ([] : List ℝ) = 0 := by
    simp [jsTotalReturn]
  simp only [calculateAnnualizedReturn, h1]
  norm_num [jsDiv, jsDivFin, jsPow, jsSub, List.length_nil]

/-- C1 as amended: there is no emptiness guard.  On the empty return
series the result is `NaN` (for every `tradingDays`); on every non-empty
series with a positive compounded growth factor and positive
`tradingDays`, the result is the total compounded return raised to the
`tradingDays / n` power, minus 1. -/
theorem C1_annualized (returns : List ℝ) (tradingDays : ℝ) :
    (returns = [] → calculateAnnualizedReturn returns tradingDays = JsNum.nan)
    ∧ (returns ≠ [] → 0 < tradingDays → 0 < 1 + jsTotalReturn returns →
        calculateAnnualizedReturn returns tradingDays
          = JsNum.val ((1 + jsTotalReturn returns)
              ^ (tradingDays / (returns.length : ℝ)) - 1)) := by
  constructor
  · rintro rfl
    have h1 : jsTotalReturn ([] : List ℝ) = 0 := by simp [jsTotalReturn]
    simp only [calculateAnnualizedReturn, h1]
    by_cases hd : tradingDays = 0
    · subst hd
      norm_num [jsDiv, jsDivFin, jsPow, jsSub, List.length_nil]
    · norm_num [jsDiv, jsDivFin, jsPow, jsSub, List.length_nil, hd]
  · intro hne hd hb
    have hn : 0 < returns.length := List.length_pos.mpr hne
    have hnR : (0 : ℝ) < (returns.length : ℝ) := by exact_mod_cast hn
    have hperiods : jsDiv (returns.length : ℝ) tradingDays
        = JsNum.val ((returns.length : ℝ) / tradingDays) := by
      rw [jsDiv, if_neg (ne_of_gt hd)]
    have hratio : (returns.length : ℝ) / tradingDays ≠ 0 :=
      ne_of_gt (div_pos hnR hd)
    have hexp : jsDivFin 1 (JsNum.val ((returns.length : ℝ) / tradingDays))
        = JsNum.val (tradingDays / (returns.length : ℝ)) := by
      rw [jsDivFin, jsDiv, if_neg hratio, one_div_div]
    have hy : tradingDays / (returns.length : ℝ) ≠ 0 :=
      ne_of_gt (div_pos hd hnR)
    simp only [calculateAnnualizedReturn, hperiods, hexp, jsPow,
      if_neg hy, if_pos hb, jsSub]

/-- C1 witness: the amended theorem applied to the series `[0]` with the
default 252 trading days. -/
theorem C1_witness :
    ([0] : List ℝ) ≠ []
    ∧ (0 : ℝ) < 252
    ∧ 0 < 1 + jsTotalReturn [0]
    ∧ calculateAnnualizedReturn [0] 252
        = JsNum.val ((1 + jsTotalReturn [0])
            ^ ((252 : ℝ) / (([0] : List ℝ).length : ℝ)) - 1) :=
  ⟨by simp, by norm_num, by norm_num [jsTotalReturn],
    (C1_annualized [0] 252).2 (by simp) (by norm_num)
      (by norm_num [jsTotalReturn])⟩

/-! Claim C2: short inputs -/

/-- C2 counterexample: `calculateSMA` does not raise or return an
`InsufficientDataError` when `period > len(prices)`; its result type
carries no error at all, and the output is simply the empty list. -/
theorem C2_counterexample : calculateSMA [1] 2 = [] := rfl

/-- C2 as amended: `calculateSMA` with `period > len(prices)` returns an
empty array (no error), while `calculateVolatility` with fewer than two
returns does fail fast with an `InsufficientDataError` (through the
spec-modelled standard-deviation primitive). -/
theorem C2_short_inputs :
    (∀ (prices : List ℚ) (period : ℕ), prices.length < period →
      calculateSMA prices period = [])
    ∧ (∀ (returns : List ℝ) (tradingDays : ℝ), returns.length < 2 →
      calculateVolatility returns tradingDays
        = Except.error QuantError.insufficientData) := by
  constructor
  · intro prices period h
    have hz : prices.length + 1 - period = 0 := by omega
    simp [calculateSMA, hz]
  · intro returns tradingDays h
    simp [calculateVolatility, ssStandardDeviation, if_pos h, Except.map]

/-- C2 witness: the amended theorem applied to a two-element price series
with period 3 and a one-element return series. -/
theorem C2_witness :
    calculateSMA [1, 2] 3 = []
    ∧ calculateVolatility [(5 : ℝ)] 252 = Except.error QuantError.insufficientData :=
  ⟨C2_short_inputs.1 [1, 2] 3 (by norm_num),
    C2_short_inputs.2 [5] 252 (by norm_num)⟩

/-! Claim C6: volatility is the sample standard deviation scaled -/

/-- C6: for at least two returns, `calculateVolatility` is the sample
standard deviation (sum of squared deviations from the mean divided by
`n - 1`, under the square root) multiplied by `√tradingDays`.  The
standard-deviation primitive is external (simple-statistics) and is
modelled from the spec, which fixes the sample (`n - 1`) convention. -/
theorem C6_volatility (returns : List ℝ) (tradingDays : ℝ)
    (h : 2 ≤ returns.length) :
    calculateVolatility returns tradingDays
      = Except.ok (Real.sqrt
          (((returns.map (fun r => (r - returns.sum / (returns.length : ℝ)) ^ 2)).sum)
            / ((returns.length : ℝ) - 1)) * Real.sqrt tradingDays) := by
  have hlt : ¬ returns.length < 2 := by omega
  simp [calculateVolatility, ssStandardDeviation, ssMeanR, if_neg hlt, Except.map]

/-- C6 witness: the theorem applied to the constant return series
`[0, 0]`. -/
theorem C6_witness :
    calculateVolatility [(0 : ℝ), 0] 252
      = Except.ok (Real.sqrt
          ((([(0 : ℝ), 0].map
              (fun r => (r - [(0 : ℝ), 0].sum / (([(0 : ℝ), 0].length : ℕ) : ℝ)) ^ 2)).sum)
            / ((([(0 : ℝ), 0].length : ℕ) : ℝ) - 1)) * Real.sqrt 252) :=
  C6_volatility [0, 0] 252 (by norm_num)

/-! Claims C7 and C8: tail-risk inequalities -/

/-- The VaR cutoff index: `floor((1 - c) * n)` as a natural number. -/
def varIndex (n : ℕ) (c : ℚ) : ℕ := (Int.floor ((1 - c) * (n : ℚ))).toNat

theorem varIndex_lt {n : ℕ} {c : ℚ} (hn : 0 < n) (hc0 : 0 < c) (hc1 : c < 1) :
    varIndex n c < n := by
  have hnQ : (0 : ℚ) < (n : ℚ) := by exact_mod_cast hn
  have hx0 : (0 : ℚ) ≤ (1 - c) * (n : ℚ) :=
    mul_nonneg (by linarith) (le_of_lt hnQ)
  have hxlt : (1 - c) * (n : ℚ) < (n : ℚ) := by
    have h1 : (1 - c) < 1 := by linarith
    calc (1 - c) * (n : ℚ) < 1 * (n : ℚ) := by
          exact mul_lt_mul_of_pos_right h1 hnQ
      _ = (n : ℚ) := one_mul _
  rw [varIndex, Int.toNat_lt (Int.floor_nonneg.mpr hx0)]
  rw [Int.floor_lt]
  exact_mod_cast hxlt

theorem calculateVaR_eq (returns : List ℚ) (c : ℚ) :
    calculateVaR returns c
      = -((returns.insertionSort (· ≤ ·)).getD (varIndex returns.length c) 0) := rfl

theorem calculateCVaR_eq (returns : List ℚ) (c : ℚ) :
    calculateCVaR returns c
      = -(ssMean ((returns.insertionSort (· ≤ ·)).take (varIndex returns.length c + 1))) := rfl

theorem sorted_getElem_le {l : List ℚ} (hs : List.Sorted (· ≤ ·) l)
    {i j : ℕ} (hij : i ≤ j) (hj : j < l.length) :
    l.get ⟨i, lt_of_le_of_lt hij hj⟩ ≤ l.get ⟨j, hj⟩ := by
  rcases Nat.lt_or_ge i j with hlt | hge
  · exact hs.rel_get_of_lt hlt
  · have hij2 : i = j := le_antisymm hij hge
    subst hij2
    exact le_refl _

/-- C7: for every non-empty return series and confidence level in (0,1),
the conditional VaR (negated mean of the sorted tail up to and including
the VaR cutoff index) is at least the VaR at the same confidence. -/
theorem C7_cvar_ge_var (returns : List ℚ) (c : ℚ)
    (hne : returns ≠ []) (hc0 : 0 < c) (hc1 : c < 1) :
    calculateVaR returns c ≤ calculateCVaR returns c := by
  have hn : 0 < returns.length := List.length_pos.mpr hne
  have hk : varIndex returns.length c < returns.length := varIndex_lt hn hc0 hc1
  set s := returns.insertionSort (· ≤ ·) with hs_def
  have hslen : s.length = returns.length := List.length_insertionSort _ _
  have hks : varIndex returns.length c < s.length := by omega
  have hsorted : List.Sorted (· ≤ ·) s := List.sorted_insertionSort _ _
  set k := varIndex returns.length c with hk_def
  set t := s.take (k + 1) with ht_def
  have htlen : t.length = k + 1 := by
    rw [ht_def, List.length_take]; omega
  have hbound : ∀ y ∈ t, y ≤ s[k] := by
    intro y hy
    rcases List.mem_iff_getElem.mp hy with ⟨i, hi, hiy⟩
    have hi2 : i ≤ k := by omega
    have his : i < s.length := by omega
    have h1 : t[i] = s[i] := List.getElem_take s
    rw [← hiy, h1]
    simpa using sorted_getElem_le hsorted hi2 hks
  have hsum : t.sum ≤ (t.length : ℚ) * s[k] := by
    have := List.sum_le_card_nsmul t (s[k]) hbound
    rwa [nsmul_eq_mul] at this
  have hmean : ssMean t ≤ s[k] := by
    rw [ssMean]
    rw [div_le_iff₀ (by rw [htlen]; positivity)]
    calc t.sum ≤ (t.length : ℚ) * s[k] := hsum
      _ = s[k] * (t.length : ℚ) := mul_comm _ _
  rw [calculateVaR_eq, calculateCVaR_eq, ← hs_def, ← hk_def, ← ht_def]
  rw [List.getD_eq_getElem _ _ hks]
  exact neg_le_neg hmean

/-- C7 witness: the theorem applied to a concrete three-element return
series at confidence 1/2. -/
theorem C7_witness :
    ([-1, 0, 1] : List ℚ) ≠ []
    ∧ (0 : ℚ) < 1/2 ∧ (1 : ℚ)/2 < 1
    ∧ calculateVaR [-1, 0, 1] (1/2) ≤ calculateCVaR [-1, 0, 1] (1/2) :=
  ⟨by decide, by norm_num, by norm_num,
    C7_cvar_ge_var [-1, 0, 1] (1/2) (by decide) (by norm_num) (by norm_num)⟩

/-- C8: for every non-empty return series, `calculateVaR` is monotone in
the confidence level on (0,1): confidence `c1 ≤ c2` gives
`VaR(c1) ≤ VaR(c2)`. -/
theorem C8_var_monotone (returns : List ℚ) (c1 c2 : ℚ)
    (hne : returns ≠ []) (hc0 : 0 < c1) (h12 : c1 ≤ c2) (hc1 : c2 < 1) :
    calculateVaR returns c1 ≤ calculateVaR returns c2 := by
  have hn : 0 < returns.length := List.length_pos.mpr hne
  have hk1 : varIndex returns.length c1 < returns.length :=
    varIndex_lt hn hc0 (lt_of_le_of_lt h12 hc1)
  have hk2 : varIndex returns.length c2 < returns.length :=
    varIndex_lt hn (lt_of_lt_of_le hc0 h12) hc1
  have hmono : varIndex returns.length c2 ≤ varIndex returns.length c1 := by
    apply Int.toNat_le_toNat
    apply Int.floor_le_floor
    have : (1 - c2) ≤ (1 - c1) := by linarith
    exact mul_le_mul_of_nonneg_right this (Nat.cast_nonneg _)
  set s := returns.insertionSort (· ≤ ·) with hs_def
  have hslen : s.length = returns.length := List.length_insertionSort _ _
  have hsorted : List.Sorted (· ≤ ·) s := List.sorted_insertionSort _ _
  have hk1s : varIndex returns.length c1 < s.length := by omega
  have hk2s : varIndex returns.length c2 < s.length := by omega
  rw [calculateVaR_eq, calculateVaR_eq, ← hs_def,
    List.getD_eq_getElem _ _ hk1s, List.getD_eq_getElem _ _ hk2s]
  exact neg_le_neg (by simpa using sorted_getElem_le hsorted hmono hk1s)

/-- C8 witness: the theorem applied to a concrete series at confidences
95% and 99%. -/
theorem C8_witness :
    ([-1, 0, 1] : List ℚ) ≠ []
    ∧ (0 : ℚ) < 95/100 ∧ (95 : ℚ)/100 ≤ 99/100 ∧ (99 : ℚ)/100 < 1
    ∧ calculateVaR [-1, 0, 1] (95/100) ≤ calculateVaR [-1, 0, 1] (99/100) :=
  ⟨by decide, by norm_num, by norm_num, by norm_num,
    C8_var_monotone [-1, 0, 1] (95/100) (99/100) (by decide) (by norm_num)
      (by norm_num) (by norm_num)⟩

/-! Claim C9: RSI stays within [0, 100] -/

theorem rsiGains_nonneg (prices : List ℚ) : ∀ x ∈ rsiGains prices, 0 ≤ x := by
  intro x hx
  rcases List.mem_map.mp hx with ⟨c, _, rfl⟩
  by_cases h : c > 0
  · rw [if_pos h]; exact le_of_lt h
  · rw [if_neg h]

theorem rsiLosses_nonneg (prices : List ℚ) : ∀ x ∈ rsiLosses prices, 0 ≤ x := by
  intro x hx
  rcases List.mem_map.mp hx with ⟨c, _, rfl⟩
  by_cases h : c < 0
  · rw [if_pos h]; linarith
  · rw [if_neg h]

/-- One Wilder update keeps the running average nonnegative. -/
theorem wilder_nonneg {period : ℕ} (hp : 1 ≤ period) {avg cur : ℚ}
    (ha : 0 ≤ avg) (hc : 0 ≤ cur) :
    0 ≤ (avg * ((period : ℚ) - 1) + cur) / (period : ℚ) := by
  have hper1 : (1 : ℚ) ≤ (period : ℚ) := by exact_mod_cast hp
  have h1 : 0 ≤ avg * ((period : ℚ) - 1) := mul_nonneg ha (by linarith)
  apply div_nonneg (by linarith) (by linarith)

theorem rsiLoop_bounds (period : ℕ) (hp : 1 ≤ period) (l : List (ℚ × ℚ)) :
    ∀ (avgGain avgLoss : ℚ), 0 ≤ avgGain → 0 ≤ avgLoss →
      (∀ gl ∈ l, 0 ≤ gl.1 ∧ 0 ≤ gl.2) →
      ∀ y ∈ rsiLoop period l avgGain avgLoss, 0 ≤ y ∧ y ≤ 100 := by
  induction l with
  | nil =>
    intro aG aL _ _ _ y hy
    simp [rsiLoop] at hy
  | cons gl rest ih =>
    intro aG aL hG hL hmem y hy
    have hgl := hmem gl (List.mem_cons_self gl rest)
    have hG2 : 0 ≤ (aG * ((period : ℚ) - 1) + gl.1) / (period : ℚ) :=
      wilder_nonneg hp hG hgl.1
    have hL2 : 0 ≤ (aL * ((period : ℚ) - 1) + gl.2) / (period : ℚ) :=
      wilder_nonneg hp hL hgl.2
    simp only [rsiLoop, List.mem_cons] at hy
    rcases hy with hy | hy
    · subst hy
      split_ifs with hz
      · constructor <;> norm_num
      · have hLpos : 0 < (aL * ((period : ℚ) - 1) + gl.2) / (period : ℚ) :=
          lt_of_le_of_ne hL2 (Ne.symm hz)
        have hrs : 0 ≤ ((aG * ((period : ℚ) - 1) + gl.1) / (period : ℚ))
            / ((aL * ((period : ℚ) - 1) + gl.2) / (period : ℚ)) :=
          div_nonneg hG2 (le_of_lt hLpos)
        have h1 : (0 : ℚ) < 1 + ((aG * ((period : ℚ) - 1) + gl.1) / (period : ℚ))
            / ((aL * ((period : ℚ) - 1) + gl.2) / (period : ℚ)) := by linarith
        have hqle : 100 / (1 + ((aG * ((period : ℚ) - 1) + gl.1) / (period : ℚ))
            / ((aL * ((period : ℚ) - 1) + gl.2) / (period : ℚ))) ≤ 100 := by
          rw [div_le_iff₀ h1]
          nlinarith
        have hqpos : 0 < 100 / (1 + ((aG * ((period : ℚ) - 1) + gl.1) / (period : ℚ))
            / ((aL * ((period : ℚ) - 1) + gl.2) / (period : ℚ))) := by positivity
        constructor <;> linarith
    · exact ih _ _ hG2 hL2 (fun x hx => hmem x (List.mem_cons_of_mem _ hx)) y hy

/-- C9: for every price series and every period at least 1, every value
emitted by `calculateRSI` lies within the closed interval [0, 100]. -/
theorem C9_rsi_bounds (prices : List ℚ) (period : ℕ) (hp : 1 ≤ period) :
    ∀ y ∈ calculateRSI prices period, 0 ≤ y ∧ y ≤ 100 := by
  have hper : (0 : ℚ) < (period : ℚ) := by exact_mod_cast hp
  unfold calculateRSI
  apply rsiLoop_bounds period hp
  · apply div_nonneg _ (le_of_lt hper)
    exact List.sum_nonneg
      (fun x hx => rsiGains_nonneg prices x (List.mem_of_mem_take hx))
  · apply div_nonneg _ (le_of_lt hper)
    exact List.sum_nonneg
      (fun x hx => rsiLosses_nonneg prices x (List.mem_of_mem_take hx))
  · intro gl hgl
    have := List.of_mem_zip hgl
    exact ⟨rsiGains_nonneg prices _ (List.mem_of_mem_drop this.1),
      rsiLosses_nonneg prices _ (List.mem_of_mem_drop this.2)⟩

theorem rsi_eval_121 : calculateRSI [1, 2, 1] 1 = [0] := by
  norm_num [calculateRSI, rsiLoop, rsiGains, rsiLosses, priceChanges,
    rsiInitAvgGain, rsiInitAvgLoss]

/-- C9 witness: the theorem applied to prices `[1, 2, 1]` with period 1,
whose single RSI value is 0. -/
theorem C9_witness :
    (1 ≤ 1)
    ∧ (0 : ℚ) ∈ calculateRSI [1, 2, 1] 1
    ∧ 0 ≤ (0 : ℚ) ∧ (0 : ℚ) ≤ 100 :=
  ⟨le_refl 1, by simp [rsi_eval_121],
    (C9_rsi_bounds [1, 2, 1] 1 (le_refl 1) 0 (by simp [rsi_eval_121])).1,
    (C9_rsi_bounds [1, 2, 1] 1 (le_refl 1) 0 (by simp [rsi_eval_121])).2⟩

/-! Claim C4: degenerate-input sentinels -/

/-- Positions of the RSI output whose smoothed average loss is 0 carry
the value 100. -/
theorem rsiLoop_avgLoss_zero (period : ℕ) (l : List (ℚ × ℚ)) :
    ∀ (avgGain avgLoss : ℚ) (j : ℕ),
      (rsiAvgLossList period l avgLoss).getD j 1 = 0 →
      (rsiLoop period l avgGain avgLoss).getD j 0 = 100 := by
  induction l with
  | nil =>
    intro aG aL j h
    simp [rsiAvgLossList] at h
  | cons gl rest ih =>
    intro aG aL j h
    cases j with
    | zero =>
      simp only [rsiAvgLossList, List.getD_cons_zero] at h
      simp only [rsiLoop, List.getD_cons_zero]
      rw [if_pos h]
    | succ j =>
      simp only [rsiAvgLossList, List.getD_cons_succ] at h
      simp only [rsiLoop, List.getD_cons_succ]
      exact ih _ _ j h

/-- C4: the four degenerate-input sentinels.  `calculateSharpeRatio`
returns exactly 0 when the annualized volatility is 0;
`calculateSortinoRatio` returns `+∞` when no returns lie below the
per-period risk-free rate or the downside deviation is 0;
`calculateBeta` returns exactly 0 when the truncated benchmark variance
is 0; and `calculateRSI` emits exactly 100 at every position whose
smoothed average loss is 0. -/
theorem C4_sentinels :
    (∀ (returns : List ℝ) (riskFreeRate tradingDays : ℝ),
        calculateVolatility returns tradingDays = Except.ok 0 →
        calculateSharpe returns riskFreeRate tradingDays = Except.ok (JsNum.val 0))
    ∧ (∀ (returns : List ℝ) (riskFreeRate tradingDays : ℝ),
        downsideReturns returns (riskFreeRate / tradingDays) = []
          ∨ Real.sqrt (ssMeanR (downsideReturns returns (riskFreeRate / tradingDays)))
              * Real.sqrt tradingDays = 0 →
        calculateSortino returns riskFreeRate tradingDays = JsNum.posInf)
    ∧ (∀ (assetReturns benchmarkReturns : List ℚ),
        ssVariance (benchmarkReturns.take
          (min assetReturns.length benchmarkReturns.length)) = 0 →
        calculateBeta assetReturns benchmarkReturns = 0)
    ∧ (∀ (prices : List ℚ) (period : ℕ) (j : ℕ),
        (calculateRSIAvgLosses prices period).getD j 1 = 0 →
        (calculateRSI prices period).getD j 0 = 100) := by
  refine ⟨?_, ?_, ?_, ?_⟩
  · intro returns riskFreeRate tradingDays h
    simp only [calculateSharpe, h, Except.map]
    simp
  · intro returns riskFreeRate tradingDays h
    rcases h with h | h
    · simp only [calculateSortino]
      rw [if_pos h]
    · simp only [calculateSortino]
      by_cases hemp : downsideReturns returns (riskFreeRate / tradingDays) = []
      · rw [if_pos hemp]
      · rw [if_neg hemp, if_pos h]
  · intro assetReturns benchmarkReturns h
    simp only [calculateBeta]
    rw [if_pos h]
  · intro prices period j h
    unfold calculateRSI calculateRSIAvgLosses at *
    exact rsiLoop_avgLoss_zero period _ _ _ j h

/-- C4 witness: the four sentinels exercised at concrete inputs — a
zero-variance return series for Sharpe, an all-gaining series for
Sortino, a constant benchmark for beta, and a rising price series whose
smoothed average loss is 0 for RSI. -/
theorem C4_witness :
    calculateSharpe [(0 : ℝ), 0] (2/100) 252 = Except.ok (JsNum.val 0)
    ∧ calculateSortino [(1 : ℝ)] 0 252 = JsNum.posInf
    ∧ calculateBeta [1, 2] [3, 3] = 0
    ∧ (calculateRSI [1, 2, 3] 1).getD 0 0 = 100 :=
  ⟨C4_sentinels.1 [0, 0] (2/100) 252
      (by norm_num [calculateVolatility, ssStandardDeviation, ssMeanR, Except.map]),
    C4_sentinels.2.1 [1] 0 252
      (Or.inl (by norm_num [downsideReturns, List.filter_cons])),
    C4_sentinels.2.2.1 [1, 2] [3, 3] (by norm_num [ssVariance, ssMean]),
    C4_sentinels.2.2.2 [1, 2, 3] 1 0
      (by norm_num [calculateRSIAvgLosses, rsiAvgLossList, rsiGains, rsiLosses,
        priceChanges, rsiInitAvgLoss])⟩

/-! Claim C10: the maximum drawdown of a positive series lies in [0, 1) -/

/-- Bounds of a single drawdown quotient. -/
theorem dd_bounds {p P : ℚ} (hp : 0 < p) (hle : p ≤ P) :
    0 ≤ (P - p) / P ∧ (P - p) / P < 1 := by
  have hP : 0 < P := lt_of_lt_of_le hp hle
  constructor
  · exact div_nonneg (by linarith) (le_of_lt hP)
  · rw [div_lt_one hP]
    linarith

theorem mddStep_invariant (s : MddState) (ip : ℕ × ℚ) (hp : 0 < ip.2)
    (h1 : 0 < s.peak) (h2 : 0 ≤ s.mdd) (h3 : s.mdd < 1) :
    0 < (mddStep s ip).peak ∧ 0 ≤ (mddStep s ip).mdd ∧ (mddStep s ip).mdd < 1 := by
  simp only [mddStep]
  split_ifs with hpk hdd hdd2
  · exact ⟨hp, (dd_bounds hp (le_refl _)).1, (dd_bounds hp (le_refl _)).2⟩
  · exact ⟨hp, h2, h3⟩
  · exact ⟨h1, (dd_bounds hp (le_of_not_lt hpk)).1, (dd_bounds hp (le_of_not_lt hpk)).2⟩
  · exact ⟨h1, h2, h3⟩

theorem mdd_foldl_bounds (l : List (ℕ × ℚ)) :
    ∀ s : MddState, (∀ ip ∈ l, 0 < ip.2) → 0 < s.peak → 0 ≤ s.mdd → s.mdd < 1 →
      0 < (l.foldl mddStep s).peak ∧ 0 ≤ (l.foldl mddStep s).mdd
        ∧ (l.foldl mddStep s).mdd < 1 := by
  induction l with
  | nil =>
    intro s _ h1 h2 h3
    exact ⟨h1, h2, h3⟩
  | cons ip rest ih =>
    intro s hmem h1 h2 h3
    have hip : 0 < ip.2 := hmem ip (List.mem_cons_self ip rest)
    have hstep := mddStep_invariant s ip hip h1 h2 h3
    rw [List.foldl_cons]
    exact ih _ (fun x hx => hmem x (List.mem_cons_of_mem _ hx))
      hstep.1 hstep.2.1 hstep.2.2

/-- C10: for a non-empty price series of strictly positive prices, the
returned `maxDrawdown` is at least 0 and strictly below 1. -/
theorem C10_mdd_range (prices : List ℚ) (hne : prices ≠ [])
    (hpos : ∀ x ∈ prices, 0 < x) :
    0 ≤ (calculateMaxDrawdown prices).maxDrawdown
    ∧ (calculateMaxDrawdown prices).maxDrawdown < 1 := by
  have hhead : 0 < prices.headD 0 := by
    cases prices with
    | nil => exact absurd rfl hne
    | cons a t => exact hpos a (List.mem_cons_self a t)
  have hmem : ∀ ip ∈ prices.tail.enumFrom 1, 0 < ip.2 := by
    rintro ⟨i, x⟩ hmem
    obtain ⟨hi1, hi2, hx⟩ := List.mem_enumFrom hmem
    show 0 < x
    rw [hx]
    exact hpos _ (List.mem_of_mem_tail (List.getElem_mem (by omega)))
  have h := mdd_foldl_bounds (prices.tail.enumFrom 1) ⟨0, prices.headD 0, 0, 0⟩
    hmem hhead (le_refl 0) (by norm_num)
  exact ⟨h.2.1, h.2.2⟩

/-- C10 witness: the theorem applied to the positive series `[2, 1]`,
whose maximum drawdown is 1/2. -/
theorem C10_witness :
    ([2, 1] : List ℚ) ≠ []
    ∧ 0 ≤ (calculateMaxDrawdown [2, 1]).maxDrawdown
    ∧ (calculateMaxDrawdown [2, 1]).maxDrawdown < 1 :=
  ⟨by simp,
    (C10_mdd_range [2, 1] (by simp)
      (by intro x hx; rcases List.mem_cons.mp hx with rfl | hx
          · norm_num
          · rcases List.mem_singleton.mp hx with rfl; norm_num)).1,
    (C10_mdd_range [2, 1] (by simp)
      (by intro x hx; rcases List.mem_cons.mp hx with rfl | hx
          · norm_num
          · rcases List.mem_singleton.mp hx with rfl; norm_num)).2⟩

/-! Claim C3: the drawdown scan against its specification -/

theorem foldl_max_init_or_mem (l : List ℚ) :
    ∀ b : ℚ, l.foldl max b = b ∨ l.foldl max b ∈ l := by
  induction l with
  | nil =>
    intro b
    left
    rfl
  | cons a t ih =>
    intro b
    rw [List.foldl_cons]
    rcases ih (max b a) with h | h
    · rw [h]
      rcases max_choice b a with h2 | h2
      · left; exact h2
      · right; rw [h2]; exact List.mem_cons_self a t
    · right; exact List.mem_cons_of_mem _ h

theorem le_foldl_max (l : List ℚ) : ∀ b : ℚ, b ≤ l.foldl max b := by
  induction l with
  | nil => intro b; exact le_refl b
  | cons a t ih =>
    intro b
    rw [List.foldl_cons]
    exact le_trans (le_max_left b a) (ih (max b a))

theorem mem_le_foldl_max (l : List ℚ) : ∀ b : ℚ, ∀ x ∈ l, x ≤ l.foldl max b := by
  induction l with
  | nil => intro b x hx; simp at hx
  | cons a t ih =>
    intro b x hx
    rw [List.foldl_cons]
    rcases List.mem_cons.mp hx with rfl | hx2
    · exact le_trans (le_max_right b x) (le_foldl_max t _)
    · exact ih (max b a) x hx2

theorem foldl_max_le (l : List ℚ) :
    ∀ b c : ℚ, b ≤ c → (∀ x ∈ l, x ≤ c) → l.foldl max b ≤ c := by
  induction l with
  | nil => intro b c h _; exact h
  | cons a t ih =>
    intro b c hb hmem
    rw [List.foldl_cons]
    exact ih _ _ (max_le hb (hmem a (List.mem_cons_self a t)))
      (fun x hx => hmem x (List.mem_cons_of_mem _ hx))

theorem listMax_snoc (q : List ℚ) (hq : q ≠ []) (a : ℚ) :
    listMax (q ++ [a]) = max (listMax q) a := by
  cases q with
  | nil => exact absurd rfl hq
  | cons b t =>
    simp only [List.cons_append, listMax, List.foldl_append, List.foldl_cons,
      List.foldl_nil]

theorem listMax_mem (q : List ℚ) (hq : q ≠ []) : listMax q ∈ q := by
  cases q with
  | nil => exact absurd rfl hq
  | cons b t =>
    rcases foldl_max_init_or_mem t b with h | h
    · rw [listMax, h]
      exact List.mem_cons_self b t
    · rw [listMax]
      exact List.mem_cons_of_mem _ h

theorem le_listMax (q : List ℚ) (x : ℚ) (hx : x ∈ q) : x ≤ listMax q := by
  cases q with
  | nil => simp at hx
  | cons b t =>
    rcases List.mem_cons.mp hx with rfl | hx2
    · exact le_foldl_max t x
    · exact mem_le_foldl_max t b x hx2

theorem findIdx_congr_on {α : Type} (l : List α) :
    ∀ f g : α → Bool, (∀ x ∈ l, f x = g x) → l.findIdx f = l.findIdx g := by
  induction l with
  | nil => intro f g _; rfl
  | cons a t ih =>
    intro f g h
    rw [List.findIdx_cons, List.findIdx_cons, h a (List.mem_cons_self a t),
      ih f g (fun x hx => h x (List.mem_cons_of_mem _ hx))]

theorem findIdx_eq_length_of_false {α : Type} (l : List α) (f : α → Bool)
    (h : ∀ x ∈ l, f x = false) : l.findIdx f = l.length := by
  induction l with
  | nil => rfl
  | cons a t ih =>
    rw [List.findIdx_cons, h a (List.mem_cons_self a t)]
    simp only [cond_false, List.length_cons]
    rw [ih (fun x hx => h x (List.mem_cons_of_mem _ hx))]

theorem mddScan_snoc (q : List ℚ) (hq : q ≠ []) (a : ℚ) :
    mddScan (q ++ [a]) = mddStep (mddScan q) (q.length, a) := by
  cases q with
  | nil => exact absurd rfl hq
  | cons b t =>
    simp only [mddScan, List.cons_append, List.tail_cons, List.headD_cons,
      List.enumFrom_append, List.foldl_append, List.length_cons]
    have h1 : 1 + t.length = t.length + 1 := Nat.add_comm 1 t.length
    rw [h1]
    simp [List.enumFrom]

theorem ddAt_snoc_lt (q : List ℚ) (a : ℚ) {i : ℕ} (h : i < q.length) :
    ddAt (q ++ [a]) i = ddAt q i := by
  unfold ddAt
  rw [List.take_append_of_le_length (by omega),
    List.getD_append _ _ _ _ h]

theorem ddAt_snoc_self (q : List ℚ) (hq : q ≠ []) (a : ℚ) :
    ddAt (q ++ [a]) q.length
      = (max (listMax q) a - a) / max (listMax q) a := by
  unfold ddAt
  have h1 : (q ++ [a]).take (q.length + 1) = q ++ [a] :=
    List.take_of_length_le (by simp)
  have h2 : (q ++ [a]).getD q.length 0 = a := by
    rw [List.getD_eq_getElem _ _ (by simp),
      List.getElem_append_right (le_refl q.length)]
    simp
  rw [h1, h2, listMax_snoc q hq a]

theorem ddAt_zero (q : List ℚ) (hq : q ≠ []) : ddAt q 0 = 0 := by
  cases q with
  | nil => exact absurd rfl hq
  | cons b t =>
    unfold ddAt
    rw [show (b :: t).take 1 = [b] from rfl]
    simp [listMax, List.getD_cons_zero]

theorem mddSpec_nonneg (q : List ℚ) : 0 ≤ mddSpec q := le_foldl_max _ 0

theorem ddAt_le_mddSpec (q : List ℚ) {i : ℕ} (h : i < q.length) :
    ddAt q i ≤ mddSpec q :=
  mem_le_foldl_max _ 0 _ (List.mem_map_of_mem _ (List.mem_range.mpr h))

theorem exists_trough (q : List ℚ) (hq : q ≠ []) :
    ∃ i, i < q.length ∧ ddAt q i = mddSpec q := by
  have hn : 0 < q.length := List.length_pos.mpr hq
  rcases foldl_max_init_or_mem ((List.range q.length).map (fun i => ddAt q i)) 0
    with h | h
  · exact ⟨0, hn, by rw [ddAt_zero q hq, mddSpec, h]⟩
  · rcases List.mem_map.mp h with ⟨i, hi, hdd⟩
    exact ⟨i, List.mem_range.mp hi, hdd⟩

theorem mddSpec_snoc (q : List ℚ) (a : ℚ) :
    mddSpec (q ++ [a]) = max (mddSpec q) (ddAt (q ++ [a]) q.length) := by
  unfold mddSpec
  rw [List.length_append, List.length_singleton, List.range_succ,
    List.map_append, List.foldl_append]
  have hmap : (List.range q.length).map (fun i => ddAt (q ++ [a]) i)
      = (List.range q.length).map (fun i => ddAt q i) :=
    List.map_congr_left (fun i hi => ddAt_snoc_lt q a (List.mem_range.mp hi))
  rw [hmap]
  simp [mddSpec]

theorem troughSpec_snoc_keep (q : List ℚ) (a : ℚ) (hq : q ≠ [])
    (hEq : mddSpec (q ++ [a]) = mddSpec q) :
    troughSpec (q ++ [a]) = troughSpec q := by
  unfold troughSpec
  rw [List.length_append, List.length_singleton, List.range_succ,
    List.findIdx_append]
  have hcongr : (List.range q.length).findIdx
        (fun i => decide (ddAt (q ++ [a]) i = mddSpec (q ++ [a])))
      = (List.range q.length).findIdx (fun i => decide (ddAt q i = mddSpec q)) :=
    findIdx_congr_on _ _ _ (fun i hi => by
      show decide (ddAt (q ++ [a]) i = mddSpec (q ++ [a]))
          = decide (ddAt q i = mddSpec q)
      rw [ddAt_snoc_lt q a (List.mem_range.mp hi), hEq])
  rw [hcongr]
  have hex : (List.range q.length).findIdx
      (fun i => decide (ddAt q i = mddSpec q)) < (List.range q.length).length := by
    apply List.findIdx_lt_length_of_exists
    obtain ⟨i, hi, hdd⟩ := exists_trough q hq
    exact ⟨i, List.mem_range.mpr hi, by simp [hdd]⟩
  rw [if_pos hex]

theorem troughSpec_snoc_new (q : List ℚ) (a : ℚ) (_hq : q ≠ [])
    (hgt : mddSpec q < ddAt (q ++ [a]) q.length) :
    troughSpec (q ++ [a]) = q.length := by
  unfold troughSpec
  rw [List.length_append, List.length_singleton, List.range_succ,
    List.findIdx_append]
  have hspec : mddSpec (q ++ [a]) = ddAt (q ++ [a]) q.length := by
    rw [mddSpec_snoc q a]
    exact max_eq_right (le_of_lt hgt)
  have hfalse : ∀ i ∈ List.range q.length,
      (fun i => decide (ddAt (q ++ [a]) i = mddSpec (q ++ [a]))) i = false := by
    intro i hi
    have hilt := List.mem_range.mp hi
    show decide (ddAt (q ++ [a]) i = mddSpec (q ++ [a])) = false
    rw [ddAt_snoc_lt q a hilt, hspec]
    simp only [decide_eq_false_iff_not]
    exact ne_of_lt (lt_of_le_of_lt (ddAt_le_mddSpec q hilt) hgt)
  rw [if_neg (by rw [findIdx_eq_length_of_false _ _ hfalse]; exact lt_irrefl _)]
  rw [List.findIdx_cons]
  have htrue : decide (ddAt (q ++ [a]) q.length = mddSpec (q ++ [a])) = true := by
    simp [hspec]
  rw [htrue]
  simp

theorem peakSpec_snoc_keep (q : List ℚ) (a : ℚ) (hq : q ≠ [])
    (hle : a ≤ listMax q) :
    peakSpec (q ++ [a]) = peakSpec q := by
  unfold peakSpec
  have hmax : listMax (q ++ [a]) = listMax q := by
    rw [listMax_snoc q hq a]
    exact max_eq_left hle
  rw [hmax, List.findIdx_append]
  have hex : q.findIdx (fun x => decide (x = listMax q)) < q.length :=
    List.findIdx_lt_length_of_exists ⟨listMax q, listMax_mem q hq, by simp⟩
  rw [if_pos hex]

theorem peakSpec_snoc_new (q : List ℚ) (a : ℚ) (hq : q ≠ [])
    (hgt : listMax q < a) :
    peakSpec (q ++ [a]) = q.length := by
  unfold peakSpec
  have hmax : listMax (q ++ [a]) = a := by
    rw [listMax_snoc q hq a]
    exact max_eq_right (le_of_lt hgt)
  rw [hmax, List.findIdx_append]
  have hfalse : ∀ x ∈ q, (fun x => decide (x = a)) x = false := by
    intro x hx
    show decide (x = a) = false
    simp only [decide_eq_false_iff_not]
    exact ne_of_lt (lt_of_le_of_lt (le_listMax q x hx) hgt)
  rw [if_neg (by rw [findIdx_eq_length_of_false _ _ hfalse]; exact lt_irrefl _)]
  rw [List.findIdx_cons]
  simp

/-- The scan of `calculateMaxDrawdown` computes, for every non-empty
series: the running peak (the maximum so far), the maximum drawdown of
the spec, the first index attaining the overall maximum price, and the
first index whose drawdown attains the maximum drawdown. -/
theorem mddScan_correct (p : List ℚ) : p ≠ [] →
    (mddScan p).peak = listMax p
    ∧ (mddScan p).mdd = mddSpec p
    ∧ (mddScan p).peakIdx = peakSpec p
    ∧ (mddScan p).troughIdx = troughSpec p := by
  induction p using List.reverseRecOn with
  | nil => intro h; exact absurd rfl h
  | append_singleton q a ih =>
    intro _
    rcases eq_or_ne q [] with rfl | hq
    · simp only [List.nil_append]
      have hscan : mddScan [a] = ⟨0, a, 0, 0⟩ := rfl
      have hdd0 : ddAt [a] 0 = 0 := ddAt_zero _ (by simp)
      have hr1 : List.range 1 = [0] := rfl
      have hspec : mddSpec [a] = 0 := by
        simp [mddSpec, hr1, hdd0]
      refine ⟨?_, ?_, ?_, ?_⟩
      · rw [hscan]
        rfl
      · rw [hscan, hspec]
      · rw [hscan]
        simp [peakSpec, listMax, List.findIdx_cons]
      · rw [hscan]
        simp [troughSpec, hr1, hdd0, hspec, List.findIdx_cons]
    · obtain ⟨ihp, ihm, ihpi, ihti⟩ := ih hq
      have hstate : mddScan q = ⟨mddSpec q, listMax q, peakSpec q, troughSpec q⟩ := by
        rw [← ihp, ← ihm, ← ihpi, ← ihti]
      rw [mddScan_snoc q hq a, hstate]
      simp only [mddStep]
      by_cases hgt : listMax q < a
      · have hddn : ddAt (q ++ [a]) q.length = 0 := by
          rw [ddAt_snoc_self q hq a, max_eq_right (le_of_lt hgt)]
          simp
        have hmdd : mddSpec (q ++ [a]) = mddSpec q := by
          rw [mddSpec_snoc q a, hddn]
          exact max_eq_left (mddSpec_nonneg q)
        rw [if_pos (show (q.length, a).2 > (⟨mddSpec q, listMax q, peakSpec q,
          troughSpec q⟩ : MddState).peak from hgt)]
        rw [if_neg (show ¬ ((a - (q.length, a).2) / a > mddSpec q) from by
          simp only []
          rw [sub_self, zero_div]
          exact not_lt.mpr (mddSpec_nonneg q))]
        refine ⟨?_, ?_, ?_, ?_⟩
        · show a = listMax (q ++ [a])
          rw [listMax_snoc q hq a, max_eq_right (le_of_lt hgt)]
        · show mddSpec q = mddSpec (q ++ [a])
          exact hmdd.symm
        · show q.length = peakSpec (q ++ [a])
          exact (peakSpec_snoc_new q a hq hgt).symm
        · show troughSpec q = troughSpec (q ++ [a])
          exact (troughSpec_snoc_keep q a hq hmdd).symm
      · have hle : a ≤ listMax q := le_of_not_lt hgt
        have hddn : ddAt (q ++ [a]) q.length
            = (listMax q - a) / listMax q := by
          rw [ddAt_snoc_self q hq a, max_eq_left hle]
        have hpk : listMax (q ++ [a]) = listMax q := by
          rw [listMax_snoc q hq a]
          exact max_eq_left hle
        rw [if_neg (show ¬ ((q.length, a).2 > (⟨mddSpec q, listMax q, peakSpec q,
          troughSpec q⟩ : MddState).peak) from not_lt.mpr hle)]
        by_cases hdd : (listMax q - a) / listMax q > mddSpec q
        · rw [if_pos (show ((⟨mddSpec q, listMax q, peakSpec q, troughSpec q⟩ :
            MddState).peak - (q.length, a).2) / (⟨mddSpec q, listMax q, peakSpec q,
            troughSpec q⟩ : MddState).peak > mddSpec q from hdd)]
          refine ⟨?_, ?_, ?_, ?_⟩
          · exact hpk.symm
          · show (listMax q - a) / listMax q = mddSpec (q ++ [a])
            rw [mddSpec_snoc q a, hddn]
            exact (max_eq_right (le_of_lt hdd)).symm
          · show peakSpec q = peakSpec (q ++ [a])
            exact (peakSpec_snoc_keep q a hq hle).symm
          · show q.length = troughSpec (q ++ [a])
            exact (troughSpec_snoc_new q a hq (by rw [hddn]; exact hdd)).symm
        · rw [if_neg (show ¬ (((⟨mddSpec q, listMax q, peakSpec q, troughSpec q⟩ :
            MddState).peak - (q.length, a).2) / (⟨mddSpec q, listMax q, peakSpec q,
            troughSpec q⟩ : MddState).peak > mddSpec q) from hdd)]
          have hmdd : mddSpec (q ++ [a]) = mddSpec q := by
            rw [mddSpec_snoc q a, hddn]
            exact max_eq_left (le_of_not_lt hdd)
          refine ⟨?_, ?_, ?_, ?_⟩
          · exact hpk.symm
          · exact hmdd.symm
          · exact (peakSpec_snoc_keep q a hq hle).symm
          · exact (troughSpec_snoc_keep q a hq hmdd).symm

theorem listMax_of_increasing (l : List ℚ) :
    ∀ (hl : l ≠ []), List.Pairwise (fun x y => x < y) l →
      listMax l = l.getLast hl := by
  induction l using List.reverseRecOn with
  | nil => intro hl; exact absurd rfl hl
  | append_singleton q a ih =>
    intro hl hinc
    rcases eq_or_ne q [] with rfl | hq
    · simp [listMax]
    · have hall : ∀ x ∈ q, x < a := by
        intro x hx
        exact (List.pairwise_append.mp hinc).2.2 x hx a (List.mem_singleton_self a)
      have hlt : listMax q < a := hall _ (listMax_mem q hq)
      rw [listMax_snoc q hq a, max_eq_right (le_of_lt hlt)]
      simp

theorem mddSpec_of_increasing (p : List ℚ)
    (hinc : List.Pairwise (fun x y => x < y) p) : mddSpec p = 0 := by
  have hdd : ∀ i < p.length, ddAt p i = 0 := by
    intro i hi
    have htlen : (p.take (i + 1)).length = i + 1 := by
      rw [List.length_take]
      omega
    have htne : p.take (i + 1) ≠ [] :=
      List.ne_nil_of_length_pos (by omega)
    have htinc : List.Pairwise (fun x y => x < y) (p.take (i + 1)) :=
      List.Pairwise.sublist (List.take_sublist _ _) hinc
    have hlast : (p.take (i + 1)).getLast htne = p.getD i 0 := by
      rw [List.getLast_eq_getElem _ htne]
      have hidx : (p.take (i + 1)).length - 1 = i := by omega
      rw [List.getD_eq_getElem _ _ hi]
      have := List.getElem_take (L := p) (j := i + 1)
        (i := (p.take (i + 1)).length - 1) (h := by omega)
      rw [this]
      congr 1
    have hmaxtake : listMax (p.take (i + 1)) = p.getD i 0 := by
      rw [listMax_of_increasing _ htne htinc, hlast]
    unfold ddAt
    rw [hmaxtake]
    simp
  apply le_antisymm
  · apply foldl_max_le _ 0 0 (le_refl 0)
    intro x hx
    rcases List.mem_map.mp hx with ⟨i, hi, rfl⟩
    rw [hdd i (List.mem_range.mp hi)]
  · exact mddSpec_nonneg p

/-- C3 counterexample: on `[100, 80, 120]` the scan returns
`maxDrawdown = 1/5` with `peakIndex = 2` and `troughIndex = 1`: the
returned peak index is the index of the running peak at the end of the
scan, which here comes after the trough, not the index of the running
peak at the time the maximum drawdown was achieved (index 0).  In
particular the returned triple violates the relation
`maxDrawdown = (p[peakIndex] - p[troughIndex]) / p[peakIndex]` that the
claim's reading of `peakIndex` entails: `(120 - 80) / 120 = 1/3 ≠ 1/5`. -/
theorem C3_counterexample :
    calculateMaxDrawdown [100, 80, 120] = ⟨1/5, 2, 1⟩
    ∧ (calculateMaxDrawdown [100, 80, 120]).troughIndex
        < (calculateMaxDrawdown [100, 80, 120]).peakIndex
    ∧ (1 : ℚ)/5 ≠ ((120 : ℚ) - 80) / 120 := by
  have h : calculateMaxDrawdown [100, 80, 120] = ⟨1/5, 2, 1⟩ := by
    norm_num [calculateMaxDrawdown, mddScan, mddStep, List.enumFrom]
  refine ⟨h, ?_, by norm_num⟩
  rw [h]
  norm_num

/-- C3 as amended: for every non-empty price series the scan returns the
maximum over all positions of the drawdown `(peak - p[i]) / peak`
against the running peak (`mddSpec`), the index of the first trough
achieving that maximum (`troughSpec`, first-wins tie-break), and — the
amendment — the index of the first position attaining the overall
maximum price, i.e. the running peak at the end of the scan
(`peakSpec`, first-wins tie-break), which is not in general the running
peak at the time the maximum drawdown was achieved; and a strictly
increasing series has maximum drawdown 0. -/
theorem C3_drawdown_scan (p : List ℚ) (hne : p ≠ []) :
    (calculateMaxDrawdown p).maxDrawdown = mddSpec p
    ∧ (calculateMaxDrawdown p).troughIndex = troughSpec p
    ∧ (calculateMaxDrawdown p).peakIndex = peakSpec p
    ∧ (List.Pairwise (fun x y => x < y) p →
        (calculateMaxDrawdown p).maxDrawdown = 0) := by
  obtain ⟨hp, hm, hpi, hti⟩ := mddScan_correct p hne
  exact ⟨hm, hti, hpi, fun hinc => by rw [show (calculateMaxDrawdown p).maxDrawdown
    = mddSpec p from hm, mddSpec_of_increasing p hinc]⟩

/-- C3 witness: the amended theorem applied to the strictly increasing
series `[1, 2, 3]`, whose maximum drawdown is 0. -/
theorem C3_witness :
    ([1, 2, 3] : List ℚ) ≠ []
    ∧ (calculateMaxDrawdown [1, 2, 3]).maxDrawdown = mddSpec [1, 2, 3]
    ∧ (calculateMaxDrawdown [1, 2, 3]).troughIndex = troughSpec [1, 2, 3]
    ∧ (calculateMaxDrawdown [1, 2, 3]).peakIndex = peakSpec [1, 2, 3]
    ∧ (calculateMaxDrawdown [1, 2, 3]).maxDrawdown = 0 :=
  ⟨by simp,
    (C3_drawdown_scan [1, 2, 3] (by simp)).1,
    (C3_drawdown_scan [1, 2, 3] (by simp)).2.1,
    (C3_drawdown_scan [1, 2, 3] (by simp)).2.2.1,
    (C3_drawdown_scan [1, 2, 3] (by simp)).2.2.2
      (by norm_num [List.pairwise_cons])⟩

end QuantAnalysis
